import Mathlib

/-!
Verification of the shared-expense settlement core of the SplitWise repository.

Amounts are JavaScript numbers; we model them as rationals (`ℚ`).  User
identifiers are the strings used as JavaScript object keys.  JavaScript
objects / Mongo collections keyed by `(debtor, creditor)` are modelled as
association lists in which `setBal` replaces any previous binding, so each
key is bound at most once in every reachable state.
-/

namespace SplitWise

abbrev UserId := String

/-- The in-memory pairwise ledger of `BalanceCalculator` (`balanceCalculator.js`):
`balances[debtor][creditor] = amount`, flattened to an association list keyed by
the ordered pair `(debtor, creditor)`.  The nested-object `cleanup()` step of the
source only deletes empty inner objects and does not change any pair's binding,
so it has no counterpart at this level. -/
abbrev BalState := List ((UserId × UserId) × ℚ)

/-- Binding of the pair `(d, c)` in the ledger, `none` when the key is absent
(JavaScript: `this.balances[d]?.[c]` being `undefined`). -/
def lookupBal : BalState → UserId → UserId → Option ℚ
  | [], _, _ => none
  | e :: rest, d, c => if e.1 = (d, c) then some e.2 else lookupBal rest d c

/-- JavaScript read `this.balances[d]?.[c] || 0`: absent keys read as `0`. -/
def getBal (s : BalState) (d c : UserId) : ℚ :=
  (lookupBal s d c).getD 0

/-- JavaScript assignment `this.balances[d][c] = v` (at the pair level). -/
def setBal (s : BalState) (d c : UserId) (v : ℚ) : BalState :=
  ((d, c), v) :: s.filter (fun e => ¬ e.1 = (d, c))

/-- JavaScript `delete this.balances[d][c]`. -/
def eraseBal (s : BalState) (d c : UserId) : BalState :=
  s.filter (fun e => ¬ e.1 = (d, c))

/-- `BalanceCalculator.addDebt` (`balanceCalculator.js` lines 34-67): record that
`debtor` owes `creditor` `amount`, cancelling any reverse debt first.  The
source writes the decremented reverse value and then deletes it if it is `0`;
here the zero test is made before writing, which yields the same map. -/
def addDebt (s : BalState) (debtorId creditorId : UserId) (amount : ℚ) : BalState :=
  if debtorId = creditorId ∨ amount ≤ 0 then s
  else
    let reverseDebt := getBal s creditorId debtorId
    if 0 < reverseDebt then
      if amount ≤ reverseDebt then
        if reverseDebt - amount = 0 then
          eraseBal s creditorId debtorId
        else
          setBal s creditorId debtorId (reverseDebt - amount)
      else
        setBal (eraseBal s creditorId debtorId) debtorId creditorId (amount - reverseDebt)
    else
      setBal s debtorId creditorId (getBal s debtorId creditorId + amount)

/-- `BalanceCalculator.settleDebt` (`balanceCalculator.js` lines 72-88): reduce
what `debtor` owes `creditor`.  The source returns `false` (no mutation) when
the binding is absent or `0` (both falsy in `!this.balances[d]?.[c]`) or when
`amount > currentDebt`; otherwise it decrements, deletes the binding if the
result is `0`, and returns `true`.  `none` models the `false` return. -/
def settleDebt (s : BalState) (debtorId creditorId : UserId) (amount : ℚ) :
    Option BalState :=
  if getBal s debtorId creditorId = 0 then none
  else
    let currentDebt := getBal s debtorId creditorId
    if currentDebt < amount then none
    else if currentDebt - amount = 0 then
      some (eraseBal s debtorId creditorId)
    else
      some (setBal s debtorId creditorId (currentDebt - amount))

/-- Spec data model: `amount : Money ≥ 0` for every stored balance entry. -/
def NonNeg (s : BalState) : Prop := ∀ e ∈ s, 0 ≤ e.2

/-- Invariant N1 (no-mutual-debt): at most one direction of a pair is positive. -/
def N1 (s : BalState) : Prop := ∀ a b : UserId, ¬ (0 < getBal s a b ∧ 0 < getBal s b a)

/-- Invariant N2 (no-zero-rows): no stored binding has amount `0`. -/
def N2 (s : BalState) : Prop := ∀ e ∈ s, e.2 ≠ 0

/-- All stored amounts are strictly positive (`NonNeg` together with `N2`). -/
def EntriesPos (s : BalState) : Prop := ∀ e ∈ s, 0 < e.2

theorem entriesPos_of_nonNeg_n2 {s : BalState} (h0 : NonNeg s) (h2 : N2 s) :
    EntriesPos s := fun e he => lt_of_le_of_ne (h0 e he) (Ne.symm (h2 e he))

/-! ### Lookup lemmas for the association-list operations -/

theorem lookupBal_setBal_same (s : BalState) (d c : UserId) (v : ℚ) :
    lookupBal (setBal s d c v) d c = some v := by
  simp [lookupBal, setBal]

theorem lookupBal_eraseBal (s : BalState) (d c d' c' : UserId) :
    lookupBal (eraseBal s d c) d' c' =
      if d' = d ∧ c' = c then none else lookupBal s d' c' := by
  induction s with
  | nil => simp [lookupBal, eraseBal]
  | cons e rest ih =>
    by_cases he : e.1 = (d, c)
    · have h1 : eraseBal (e :: rest) d c = eraseBal rest d c := by
        simp [eraseBal, List.filter_cons, he]
      rw [h1, ih]
      by_cases hk : d' = d ∧ c' = c
      · simp [hk]
      · rw [if_neg hk, if_neg hk]
        have hee : ¬ e.1 = (d', c') := by
          intro h2
          rw [he] at h2
          injection h2 with h3 h4
          exact hk ⟨h3.symm, h4.symm⟩
        rw [lookupBal, if_neg hee]
    · have h1 : eraseBal (e :: rest) d c = e :: eraseBal rest d c := by
        simp [eraseBal, List.filter_cons, he]
      rw [h1]
      by_cases hee : e.1 = (d', c')
      · have hk : ¬ (d' = d ∧ c' = c) := by
          rintro ⟨rfl, rfl⟩; exact he hee
        rw [if_neg hk, lookupBal, lookupBal, if_pos hee, if_pos hee]
      · rw [lookupBal, lookupBal, if_neg hee, if_neg hee, ih]

theorem lookupBal_eraseBal_same (s : BalState) (d c : UserId) :
    lookupBal (eraseBal s d c) d c = none := by
  rw [lookupBal_eraseBal]; simp

theorem lookupBal_eraseBal_ne (s : BalState) {d c d' c' : UserId}
    (h : ¬ (d' = d ∧ c' = c)) :
    lookupBal (eraseBal s d c) d' c' = lookupBal s d' c' := by
  rw [lookupBal_eraseBal, if_neg h]

theorem lookupBal_setBal (s : BalState) (d c : UserId) (v : ℚ) (d' c' : UserId) :
    lookupBal (setBal s d c v) d' c' =
      if d' = d ∧ c' = c then some v else lookupBal s d' c' := by
  by_cases hk : d' = d ∧ c' = c
  · obtain ⟨rfl, rfl⟩ := hk
    simp [lookupBal_setBal_same]
  · rw [if_neg hk]
    show lookupBal (((d, c), v) :: eraseBal s d c) d' c' = _
    have hne : ¬ (((d, c), v) : (UserId × UserId) × ℚ).1 = (d', c') := by
      intro h2
      injection h2 with h3 h4
      exact hk ⟨h3.symm, h4.symm⟩
    rw [lookupBal, if_neg hne]
    exact lookupBal_eraseBal_ne s hk

theorem getBal_setBal (s : BalState) (d c : UserId) (v : ℚ) (d' c' : UserId) :
    getBal (setBal s d c v) d' c' =
      if d' = d ∧ c' = c then v else getBal s d' c' := by
  unfold getBal
  rw [lookupBal_setBal]
  by_cases hk : d' = d ∧ c' = c <;> simp [hk]

theorem getBal_eraseBal (s : BalState) (d c d' c' : UserId) :
    getBal (eraseBal s d c) d' c' =
      if d' = d ∧ c' = c then 0 else getBal s d' c' := by
  unfold getBal
  rw [lookupBal_eraseBal]
  by_cases hk : d' = d ∧ c' = c <;> simp [hk]

/-- Membership in `setBal`. -/
theorem mem_setBal {s : BalState} {d c : UserId} {v : ℚ}
    {e : (UserId × UserId) × ℚ} :
    e ∈ setBal s d c v ↔ e = ((d, c), v) ∨ (e ∈ s ∧ ¬ e.1 = (d, c)) := by
  simp [setBal, List.mem_filter]

/-- Membership in `eraseBal`. -/
theorem mem_eraseBal {s : BalState} {d c : UserId} {e : (UserId × UserId) × ℚ} :
    e ∈ eraseBal s d c ↔ e ∈ s ∧ ¬ e.1 = (d, c) := by
  simp [eraseBal, List.mem_filter]

theorem mem_of_lookupBal_eq_some {s : BalState} {d c : UserId} {v : ℚ}
    (h : lookupBal s d c = some v) : ((d, c), v) ∈ s := by
  induction s with
  | nil => simp [lookupBal] at h
  | cons e rest ih =>
    rw [lookupBal] at h
    by_cases he : e.1 = (d, c)
    · rw [if_pos he] at h
      injection h with h2
      obtain ⟨k, w⟩ := e
      simp only at he h2
      rw [he, h2] at *
      exact List.mem_cons_self _ _
    · rw [if_neg he] at h
      exact List.mem_cons_of_mem _ (ih h)

theorem getBal_nonneg {s : BalState} (h0 : NonNeg s) (d c : UserId) :
    0 ≤ getBal s d c := by
  unfold getBal
  cases h : lookupBal s d c with
  | none => simp
  | some v => simpa using h0 _ (mem_of_lookupBal_eq_some h)

theorem lookupBal_eq_some_getBal {s : BalState} {d c : UserId}
    (h : getBal s d c ≠ 0) : lookupBal s d c = some (getBal s d c) := by
  cases hl : lookupBal s d c with
  | none => exact absurd (by unfold getBal; rw [hl]; rfl) h
  | some v => simp [getBal, hl]

theorem lookupBal_eq_none_of_entriesPos {s : BalState} (hp : EntriesPos s)
    {d c : UserId} (h : getBal s d c ≤ 0) : lookupBal s d c = none := by
  cases hl : lookupBal s d c with
  | none => rfl
  | some v =>
    have hv : 0 < v := hp _ (mem_of_lookupBal_eq_some hl)
    have : getBal s d c = v := by unfold getBal; rw [hl]; rfl
    exact absurd (this ▸ h) (not_le.mpr hv)

/-! ### Invariant preservation for `addDebt` -/

theorem addDebt_guard {s : BalState} {d c : UserId} {a : ℚ}
    (h : d = c ∨ a ≤ 0) : addDebt s d c a = s := by
  simp only [addDebt]; rw [if_pos h]

theorem addDebt_nonNeg {s : BalState} (d c : UserId) (a : ℚ) (h0 : NonNeg s) :
    NonNeg (addDebt s d c a) := by
  simp only [addDebt]
  split_ifs with hg hrev hle hz
  · exact h0
  · exact fun e he => h0 e (mem_eraseBal.mp he).1
  · intro e he
    rcases mem_setBal.mp he with rfl | ⟨hes, _⟩
    · have : a ≤ getBal s c d := hle
      simpa using sub_nonneg.mpr this
    · exact h0 e hes
  · intro e he
    rcases mem_setBal.mp he with rfl | ⟨hes, _⟩
    · have : getBal s c d < a := not_le.mp hle
      simpa using le_of_lt (sub_pos.mpr this)
    · exact h0 e (mem_eraseBal.mp hes).1
  · intro e he
    push_neg at hg
    rcases mem_setBal.mp he with rfl | ⟨hes, _⟩
    · have hf : 0 ≤ getBal s d c := getBal_nonneg h0 d c
      have ha : 0 < a := hg.2
      simpa using add_nonneg hf (le_of_lt ha)
    · exact h0 e hes

theorem addDebt_n2 {s : BalState} (d c : UserId) (a : ℚ) (h0 : NonNeg s)
    (h2 : N2 s) : N2 (addDebt s d c a) := by
  simp only [addDebt]
  split_ifs with hg hrev hle hz
  · exact h2
  · exact fun e he => h2 e (mem_eraseBal.mp he).1
  · intro e he
    rcases mem_setBal.mp he with rfl | ⟨hes, _⟩
    · simpa using hz
    · exact h2 e hes
  · intro e he
    rcases mem_setBal.mp he with rfl | ⟨hes, _⟩
    · have : getBal s c d < a := not_le.mp hle
      simpa using ne_of_gt (sub_pos.mpr this)
    · exact h2 e (mem_eraseBal.mp hes).1
  · intro e he
    push_neg at hg
    rcases mem_setBal.mp he with rfl | ⟨hes, _⟩
    · have hf : 0 ≤ getBal s d c := getBal_nonneg h0 d c
      have ha : 0 < a := hg.2
      simpa using ne_of_gt (add_pos_of_nonneg_of_pos hf ha)
    · exact h2 e hes

theorem addDebt_n1 {s : BalState} (d c : UserId) (a : ℚ) (h1 : N1 s) :
    N1 (addDebt s d c a) := by
  simp only [addDebt]
  split_ifs with hg hrev hle hz
  · exact h1
  -- reverse fully cancelled: `eraseBal s c d`
  · intro x y ⟨hxy, hyx⟩
    rw [getBal_eraseBal] at hxy hyx
    by_cases hx : x = c ∧ y = d
    · rw [if_pos hx] at hxy; exact lt_irrefl 0 hxy
    · rw [if_neg hx] at hxy
      by_cases hy : y = c ∧ x = d
      · rw [if_pos hy] at hyx; exact lt_irrefl 0 hyx
      · rw [if_neg hy] at hyx; exact h1 x y ⟨hxy, hyx⟩
  -- reverse reduced: `setBal s c d (reverseDebt - a)`
  · intro x y ⟨hxy, hyx⟩
    push_neg at hg
    rw [getBal_setBal] at hxy hyx
    by_cases hx : x = c ∧ y = d
    · rw [if_pos hx] at hxy
      have hy : ¬ (y = c ∧ x = d) := by
        rintro ⟨rfl, rfl⟩; exact hg.1 (hx.1.symm ▸ hx.2)
      rw [if_neg hy] at hyx
      rw [hx.1, hx.2] at hyx
      exact h1 c d ⟨hrev, hyx⟩
    · rw [if_neg hx] at hxy
      by_cases hy : y = c ∧ x = d
      · rw [if_pos hy] at hyx
        rw [hy.2, hy.1] at hxy
        exact h1 c d ⟨hrev, hxy⟩
      · rw [if_neg hy] at hyx; exact h1 x y ⟨hxy, hyx⟩
  -- direction flipped: `setBal (eraseBal s c d) d c (a - reverseDebt)`
  · intro x y ⟨hxy, hyx⟩
    push_neg at hg
    rw [getBal_setBal, getBal_eraseBal] at hxy hyx
    by_cases hx : x = d ∧ y = c
    · have hy : ¬ (y = d ∧ x = c) := by
        rintro ⟨rfl, rfl⟩; exact hg.1 (hx.1.symm ▸ hx.2)
      rw [if_neg hy] at hyx
      have hy2 : y = c ∧ x = d := ⟨hx.2, hx.1⟩
      rw [if_pos hy2] at hyx
      exact lt_irrefl 0 hyx
    · rw [if_neg hx] at hxy
      by_cases hx2 : x = c ∧ y = d
      · rw [if_pos hx2] at hxy; exact lt_irrefl 0 hxy
      · rw [if_neg hx2] at hxy
        by_cases hy : y = d ∧ x = c
        · exact hx2 ⟨hy.2, hy.1⟩ |>.elim
        · rw [if_neg hy] at hyx
          by_cases hy2 : y = c ∧ x = d
          · exact hx ⟨hy2.2, hy2.1⟩ |>.elim
          · rw [if_neg hy2] at hyx; exact h1 x y ⟨hxy, hyx⟩
  -- no reverse debt: `setBal s d c (getBal s d c + a)`
  · intro x y ⟨hxy, hyx⟩
    push_neg at hg
    rw [getBal_setBal] at hxy hyx
    by_cases hx : x = d ∧ y = c
    · have hy : ¬ (y = d ∧ x = c) := by
        rintro ⟨rfl, rfl⟩; exact hg.1 (hx.1.symm ▸ hx.2)
      rw [if_neg hy] at hyx
      obtain ⟨rfl, rfl⟩ := hx
      exact hrev hyx
    · rw [if_neg hx] at hxy
      by_cases hy : y = d ∧ x = c
      · obtain ⟨rfl, rfl⟩ := hy
        exact hrev hxy
      · rw [if_neg hy] at hyx; exact h1 x y ⟨hxy, hyx⟩

theorem addDebt_entriesPos {s : BalState} (d c : UserId) (a : ℚ)
    (hp : EntriesPos s) : EntriesPos (addDebt s d c a) :=
  entriesPos_of_nonNeg_n2
    (addDebt_nonNeg d c a (fun e he => le_of_lt (hp e he)))
    (addDebt_n2 d c a (fun e he => le_of_lt (hp e he)) (fun e he => ne_of_gt (hp e he)))

theorem nonNeg_nil : NonNeg [] := by intro e he; simp at he

theorem n1_nil : N1 [] := by intro a b h; simp [getBal, lookupBal] at h

theorem n2_nil : N2 [] := by intro e he; simp at he

/-- C1: on a well-formed balance state (all stored amounts are `Money ≥ 0` per
the spec data model) satisfying N1 (no mutual debt) and N2 (no zero rows),
`addDebt` is the identity when `debtor = creditor` or `amount ≤ 0`, and
otherwise preserves N1 and N2. -/
theorem C1_addDebt_preserves_invariants (s : BalState)
    (debtorId creditorId : UserId) (amount : ℚ)
    (h0 : NonNeg s) (h1 : N1 s) (h2 : N2 s) :
    ((debtorId = creditorId ∨ amount ≤ 0) →
        addDebt s debtorId creditorId amount = s) ∧
    N1 (addDebt s debtorId creditorId amount) ∧
    N2 (addDebt s debtorId creditorId amount) :=
  ⟨addDebt_guard, addDebt_n1 _ _ _ h1, addDebt_n2 _ _ _ h0 h2⟩

/-- Witness for C1 at the empty state and `addDebt [] "a" "b" 5`. -/
theorem C1_addDebt_preserves_invariants_witness :
    N1 (addDebt [] "a" "b" 5) ∧ N2 (addDebt [] "a" "b" 5) :=
  (C1_addDebt_preserves_invariants [] "a" "b" 5 nonNeg_nil n1_nil n2_nil).2

/-- C9: on a well-formed state (Money ≥ 0) satisfying N1 and N2, adding a debt
`A → B` of `x > 0` and then the opposite debt `B → A` of the same `x` returns
the ledger to exactly its previous bindings. -/
theorem C9_addDebt_roundTrip (s : BalState) (A B : UserId) (x : ℚ)
    (h0 : NonNeg s) (h1 : N1 s) (h2 : N2 s) (hAB : A ≠ B) (hx : 0 < x) :
    ∀ d c, lookupBal (addDebt (addDebt s A B x) B A x) d c = lookupBal s d c := by
  have hp : EntriesPos s := entriesPos_of_nonNeg_n2 h0 h2
  have hg1 : ¬ (A = B ∨ x ≤ 0) := by
    rintro (h | h); exacts [hAB h, absurd hx (not_lt.mpr h)]
  have hg2 : ¬ (B = A ∨ x ≤ 0) := by
    rintro (h | h); exacts [hAB h.symm, absurd hx (not_lt.mpr h)]
  have hABp : ¬ 0 < getBal s A B ∨ ¬ 0 < getBal s B A := by
    by_contra hc
    push_neg at hc
    exact h1 A B ⟨hc.1, hc.2⟩
  by_cases hrev : 0 < getBal s B A
  · -- a positive reverse debt `B → A` exists; `A → B` is absent by N1
    have hABz : getBal s A B = 0 :=
      le_antisymm (not_lt.mp (hABp.resolve_right (not_not.mpr hrev)))
        (getBal_nonneg h0 A B)
    have hABnone : lookupBal s A B = none :=
      lookupBal_eq_none_of_entriesPos hp (le_of_eq hABz)
    by_cases hle : x ≤ getBal s B A
    · by_cases hz : getBal s B A - x = 0
      · -- the reverse debt is exactly `x` and is erased, then re-added
        have e1 : addDebt s A B x = eraseBal s B A := by
          simp only [addDebt]; rw [if_neg hg1, if_pos hrev, if_pos hle, if_pos hz]
        have hrv2 : getBal (eraseBal s B A) A B = 0 := by
          rw [getBal_eraseBal, if_neg (by rintro ⟨h, _⟩; exact hAB h), hABz]
        have e2 : addDebt (eraseBal s B A) B A x =
            setBal (eraseBal s B A) B A (getBal (eraseBal s B A) B A + x) := by
          simp only [addDebt]
          rw [if_neg hg2, if_neg (by rw [hrv2]; exact lt_irrefl 0)]
        have hget1 : getBal (eraseBal s B A) B A = 0 := by
          rw [getBal_eraseBal, if_pos ⟨rfl, rfl⟩]
        intro d c
        rw [e1, e2, lookupBal_setBal]
        by_cases hk : d = B ∧ c = A
        · rw [if_pos hk, hk.1, hk.2,
            lookupBal_eq_some_getBal (ne_of_gt hrev), hget1, zero_add,
            ← sub_eq_zero.mp hz]
        · rw [if_neg hk, lookupBal_eraseBal, if_neg hk]
      · -- the reverse debt is reduced, then restored
        have e1 : addDebt s A B x = setBal s B A (getBal s B A - x) := by
          simp only [addDebt]; rw [if_neg hg1, if_pos hrev, if_pos hle, if_neg hz]
        have hrv2 : getBal (setBal s B A (getBal s B A - x)) A B = 0 := by
          rw [getBal_setBal, if_neg (by rintro ⟨h, _⟩; exact hAB h), hABz]
        have e2 : addDebt (setBal s B A (getBal s B A - x)) B A x =
            setBal (setBal s B A (getBal s B A - x)) B A
              (getBal (setBal s B A (getBal s B A - x)) B A + x) := by
          simp only [addDebt]
          rw [if_neg hg2, if_neg (by rw [hrv2]; exact lt_irrefl 0)]
        have hget1 : getBal (setBal s B A (getBal s B A - x)) B A =
            getBal s B A - x := by
          rw [getBal_setBal, if_pos ⟨rfl, rfl⟩]
        intro d c
        rw [e1, e2, lookupBal_setBal]
        by_cases hk : d = B ∧ c = A
        · rw [if_pos hk, hk.1, hk.2,
            lookupBal_eq_some_getBal (ne_of_gt hrev), hget1, sub_add_cancel]
        · rw [if_neg hk, lookupBal_setBal, if_neg hk]
    · -- the new debt exceeds the reverse debt: direction flips, then flips back
      have e1 : addDebt s A B x =
          setBal (eraseBal s B A) A B (x - getBal s B A) := by
        simp only [addDebt]; rw [if_neg hg1, if_pos hrev, if_neg hle]
      have hrv2 : getBal (setBal (eraseBal s B A) A B (x - getBal s B A)) A B =
          x - getBal s B A := by
        rw [getBal_setBal, if_pos ⟨rfl, rfl⟩]
      have hrv2pos : 0 < x - getBal s B A := sub_pos.mpr (not_le.mp hle)
      have hle2 : ¬ x ≤ x - getBal s B A := by
        rw [not_le, sub_lt_self_iff]; exact hrev
      have e2 : addDebt (setBal (eraseBal s B A) A B (x - getBal s B A)) B A x =
          setBal (eraseBal (setBal (eraseBal s B A) A B (x - getBal s B A)) A B)
            B A (x - (x - getBal s B A)) := by
        simp only [addDebt]
        rw [if_neg hg2, hrv2, if_pos hrv2pos, if_neg hle2]
      intro d c
      rw [e1, e2, lookupBal_setBal]
      by_cases hk : d = B ∧ c = A
      · rw [if_pos hk, hk.1, hk.2,
          lookupBal_eq_some_getBal (ne_of_gt hrev), sub_sub_cancel]
      · rw [if_neg hk, lookupBal_eraseBal]
        by_cases hk2 : d = A ∧ c = B
        · rw [if_pos hk2, hk2.1, hk2.2, hABnone]
        · rw [if_neg hk2, lookupBal_setBal, if_neg hk2,
            lookupBal_eraseBal, if_neg hk]
  · -- no reverse debt: the forward debt is increased by `x`, then reduced by `x`
    have hBAz : getBal s B A = 0 :=
      le_antisymm (not_lt.mp hrev) (getBal_nonneg h0 B A)
    have e1 : addDebt s A B x = setBal s A B (getBal s A B + x) := by
      simp only [addDebt]; rw [if_neg hg1, if_neg hrev]
    have hrv2 : getBal (setBal s A B (getBal s A B + x)) A B =
        getBal s A B + x := by
      rw [getBal_setBal, if_pos ⟨rfl, rfl⟩]
    have hf : 0 ≤ getBal s A B := getBal_nonneg h0 A B
    have hrv2pos : 0 < getBal s A B + x := add_pos_of_nonneg_of_pos hf hx
    have hle2 : x ≤ getBal s A B + x := le_add_of_nonneg_left hf
    by_cases hz2 : getBal s A B + x - x = 0
    · -- the forward debt was absent: the new binding is fully erased again
      have hABz : getBal s A B = 0 := by
        have := hz2; rwa [add_sub_cancel_right] at this
      have hABnone : lookupBal s A B = none :=
        lookupBal_eq_none_of_entriesPos hp (le_of_eq hABz)
      have e2 : addDebt (setBal s A B (getBal s A B + x)) B A x =
          eraseBal (setBal s A B (getBal s A B + x)) A B := by
        simp only [addDebt]
        rw [if_neg hg2, hrv2, if_pos hrv2pos, if_pos hle2, if_pos hz2]
      intro d c
      rw [e1, e2, lookupBal_eraseBal]
      by_cases hk : d = A ∧ c = B
      · rw [if_pos hk, hk.1, hk.2, hABnone]
      · rw [if_neg hk, lookupBal_setBal, if_neg hk]
    · -- the forward debt existed: it is restored to its old value
      have hABne : getBal s A B ≠ 0 := by
        intro h; apply hz2; rw [h, zero_add, sub_self]
      have e2 : addDebt (setBal s A B (getBal s A B + x)) B A x =
          setBal (setBal s A B (getBal s A B + x)) A B
            (getBal s A B + x - x) := by
        simp only [addDebt]
        rw [if_neg hg2, hrv2, if_pos hrv2pos, if_pos hle2, if_neg hz2]
      intro d c
      rw [e1, e2, lookupBal_setBal]
      by_cases hk : d = A ∧ c = B
      · rw [if_pos hk, hk.1, hk.2, lookupBal_eq_some_getBal hABne,
          add_sub_cancel_right]
      · rw [if_neg hk, lookupBal_setBal, if_neg hk]

/-- Witness for C9: at the empty state with users `a`, `b` and amount `1`, both
hypotheses hold and the round trip restores the (absent) binding `a → b`. -/
theorem C9_addDebt_roundTrip_witness :
    lookupBal (addDebt (addDebt [] "a" "b" 1) "b" "a" 1) "a" "b" =
      lookupBal [] "a" "b" :=
  C9_addDebt_roundTrip [] "a" "b" 1 nonNeg_nil n1_nil n2_nil
    (by decide) (by norm_num) "a" "b"

/-! ### The Balance collection of `balanceServiceV2.js` -/

/-- A document of the `Balance` collection: `{group, debtor, creditor, amount}`,
with `group = none` for direct (non-group) balances. -/
structure BalRow where
  group : Option String
  debtor : UserId
  creditor : UserId
  amount : ℚ
  deriving DecidableEq

abbrev Store := List BalRow

/-- `Balance.findOne({group, debtor, creditor})`, returning the amount. -/
def findBalance (s : Store) (g : Option String) (d c : UserId) : Option ℚ :=
  (s.find? (fun r => decide (r.group = g ∧ r.debtor = d ∧ r.creditor = c))).map
    (·.amount)

/-- Mongoose `balance.amount = v; balance.save()`: overwrite the amount of the
first document with this key, leaving it in place.  No document is inserted or
deleted. -/
def saveAmount : Store → Option String → UserId → UserId → ℚ → Store
  | [], _, _, _, _ => []
  | r :: rest, g, d, c, v =>
    if r.group = g ∧ r.debtor = d ∧ r.creditor = c then
      { r with amount := v } :: rest
    else
      r :: saveAmount rest g d c v

/-- The scope used by `settleBalance`: the literal `"direct"` maps to
`group: null`. -/
def scopeOf (groupId : String) : Option String :=
  if groupId = "direct" then none else some groupId

/-- `settleBalance` (`balanceServiceV2.js` lines 252-286): look the pair up,
throw (`none`) when the document is missing or `balance.amount < amount`,
otherwise decrement and save.  The saved document is never deleted, whatever
the remaining amount.  The returned pair carries `remainingBalance`. -/
def settleBalance (s : Store) (groupId : String) (debtorId creditorId : UserId)
    (amount : ℚ) : Option (Store × ℚ) :=
  match findBalance s (scopeOf groupId) debtorId creditorId with
  | none => none
  | some v =>
    if v < amount then none
    else
      some (saveAmount s (scopeOf groupId) debtorId creditorId (v - amount),
        v - amount)

/-- `Balance.find({group: g, amount: {$gt: 0}})` — the scan used by
`getGroupBalances`, settlement suggestions, and every other read path. -/
def scanByScope (s : Store) (g : Option String) : Store :=
  s.filter (fun r => decide (r.group = g ∧ 0 < r.amount))

/-- At most one document per `(group, debtor, creditor)` key, as maintained by
the service's `findOneAndUpdate … upsert` usage. -/
def KeysNodup (s : Store) : Prop :=
  (s.map (fun r => (r.group, r.debtor, r.creditor))).Nodup

theorem findBalance_saveAmount_same {s : Store} {g : Option String}
    {d c : UserId} {v w : ℚ} (h : findBalance s g d c = some v) :
    findBalance (saveAmount s g d c w) g d c = some w := by
  induction s with
  | nil => simp [findBalance] at h
  | cons r rest ih =>
    by_cases hr : r.group = g ∧ r.debtor = d ∧ r.creditor = c
    · rw [saveAmount, if_pos hr]
      simp [findBalance, List.find?, hr]
    · rw [saveAmount, if_neg hr]
      rw [findBalance, List.find?] at h ⊢
      rw [decide_eq_false hr] at h ⊢
      exact ih h

theorem mem_saveAmount {s : Store} {g : Option String} {d c : UserId} {w : ℚ}
    {q : BalRow} (hq : q ∈ saveAmount s g d c w) :
    q ∈ s ∨ ∃ r ∈ s, r.group = g ∧ r.debtor = d ∧ r.creditor = c ∧
      q = { r with amount := w } := by
  induction s with
  | nil => simp [saveAmount] at hq
  | cons r rest ih =>
    by_cases hr : r.group = g ∧ r.debtor = d ∧ r.creditor = c
    · rw [saveAmount, if_pos hr] at hq
      rcases List.mem_cons.mp hq with rfl | hmem
      · exact Or.inr ⟨r, List.mem_cons_self _ _, hr.1, hr.2.1, hr.2.2, rfl⟩
      · exact Or.inl (List.mem_cons_of_mem _ hmem)
    · rw [saveAmount, if_neg hr] at hq
      rcases List.mem_cons.mp hq with rfl | hmem
      · exact Or.inl (List.mem_cons_self _ _)
      · rcases ih hmem with h | ⟨r', hr', h1, h2, h3, h4⟩
        · exact Or.inl (List.mem_cons_of_mem _ h)
        · exact Or.inr ⟨r', List.mem_cons_of_mem _ hr', h1, h2, h3, h4⟩

/-- With unique keys, every document of `saveAmount s g d c w` that carries the
key `(g, d, c)` has amount `w`. -/
theorem saveAmount_key_amount {s : Store} {g : Option String} {d c : UserId}
    {w : ℚ} (hu : KeysNodup s) :
    ∀ q ∈ saveAmount s g d c w,
      q.group = g → q.debtor = d → q.creditor = c → q.amount = w := by
  induction s with
  | nil => intro q hq; simp [saveAmount] at hq
  | cons r rest ih =>
    have hu' : KeysNodup rest := (List.nodup_cons.mp hu).2
    have hknotin := (List.nodup_cons.mp hu).1
    intro q hq hg hd hc
    by_cases hr : r.group = g ∧ r.debtor = d ∧ r.creditor = c
    · rw [saveAmount, if_pos hr] at hq
      rcases List.mem_cons.mp hq with rfl | hmem
      · rfl
      · exfalso
        apply hknotin
        rw [List.mem_map]
        refine ⟨q, hmem, ?_⟩
        show (q.group, q.debtor, q.creditor) = (r.group, r.debtor, r.creditor)
        rw [hg, hd, hc, hr.1, hr.2.1, hr.2.2]
    · rw [saveAmount, if_neg hr] at hq
      rcases List.mem_cons.mp hq with rfl | hmem
      · exact absurd ⟨hg, hd, hc⟩ hr
      · exact ih hu' q hmem hg hd hc

/-- C3 (bug exhibit): `settleDebt` performs no `amount > 0` validation.  With a
stored debt of `500`, settling the non-positive amount `-100` is accepted and
*increases* the stored debt to `600`, instead of failing with the
invalid-settlement error and leaving the balance unchanged. -/
theorem C3_settleDebt_accepts_nonpositive_amount :
    settleDebt [(("B", "A"), 500)] "B" "A" (-100) =
      some [(("B", "A"), 600)] := by
  have h1 : getBal [(("B", "A"), 500)] "B" "A" = 500 := by decide
  rw [settleDebt]
  rw [if_neg (by rw [h1]; norm_num)]
  dsimp only
  rw [h1, if_neg (by norm_num), if_neg (by norm_num)]
  norm_num [setBal]

/-- C4 counterexample: fully settling the pair `(G, B, A)` with stored amount
`500` does **not** delete the document; the store still holds the key with
amount `0` afterwards. -/
theorem C4_full_settlement_keeps_zero_row :
    settleBalance [⟨some "G", "B", "A", 500⟩] "G" "B" "A" 500 =
      some ([⟨some "G", "B", "A", 0⟩], 0) ∧
    findBalance [(⟨some "G", "B", "A", 0⟩ : BalRow)] (some "G") "B" "A" =
      some 0 := by
  constructor
  · have h1 : findBalance [(⟨some "G", "B", "A", 500⟩ : BalRow)] (scopeOf "G")
        "B" "A" = some 500 := by decide
    rw [settleBalance, h1]
    dsimp only
    rw [if_neg (by norm_num)]
    norm_num [saveAmount, scopeOf]
    decide
  · decide

/-- C4 (amended): a successful full settlement leaves the document stored with
amount `0` (it is not deleted), but every scan filters on `amount > 0`, so the
pair is never returned by subsequent scans. -/
theorem C4_full_settlement_tombstones (s : Store) (g : String) (d c : UserId)
    (v : ℚ) (hu : KeysNodup s)
    (hv : findBalance s (scopeOf g) d c = some v) :
    settleBalance s g d c v = some (saveAmount s (scopeOf g) d c 0, 0) ∧
    findBalance (saveAmount s (scopeOf g) d c 0) (scopeOf g) d c = some 0 ∧
    ∀ r ∈ scanByScope (saveAmount s (scopeOf g) d c 0) (scopeOf g),
      ¬ (r.debtor = d ∧ r.creditor = c) := by
  refine ⟨?_, ?_, ?_⟩
  · rw [settleBalance, hv]
    dsimp only
    rw [if_neg (lt_irrefl v), sub_self]
  · exact findBalance_saveAmount_same hv
  · intro r hr ⟨hd, hc⟩
    have hmem := List.mem_filter.mp hr
    have hgpos := of_decide_eq_true hmem.2
    have := saveAmount_key_amount hu r hmem.1 hgpos.1 hd hc
    rw [this] at hgpos
    exact lt_irrefl 0 hgpos.2

/-- Witness for C4 (amended) at a one-document store. -/
theorem C4_full_settlement_tombstones_witness :
    findBalance
        (saveAmount [(⟨some "G", "B", "A", 500⟩ : BalRow)] (scopeOf "G") "B" "A" 0)
        (scopeOf "G") "B" "A" = some 0 :=
  (C4_full_settlement_tombstones [⟨some "G", "B", "A", 500⟩] "G" "B" "A" 500
    (by unfold KeysNodup; decide) (by decide)).2.1

/-! ### The settlement planner (`settlementService.js`) -/

/-- An element of the `creditors` / `debtors` working arrays. -/
structure Party where
  userId : String
  amount : ℚ
  deriving DecidableEq

/-- An emitted settlement transaction `{from, to, amount}` (the source's
`from`/`to` are reserved words in Lean, hence `from_`/`to_`). -/
structure Txn where
  from_ : String
  to_ : String
  amount : ℚ
  deriving DecidableEq

/-- JavaScript `Math.round`: half-integers round toward `+∞`. -/
def jsRound (x : ℚ) : ℤ := ⌊x + 1 / 2⌋

/-- `Math.round(x * 100) / 100` — round to two decimal places. -/
def jsRound2 (x : ℚ) : ℚ := (jsRound (x * 100) : ℚ) / 100

/-- The preorder decided by the comparator `(a, b) => b.amount - a.amount`. -/
def partyGE (a b : Party) : Prop := b.amount ≤ a.amount

instance : DecidableRel partyGE :=
  fun a b => inferInstanceAs (Decidable (b.amount ≤ a.amount))

/-- Model of `Array.prototype.sort` with comparator
`(a, b) => b.amount - a.amount`: ECMAScript sort is stable, so the result is
the unique stable descending reordering.  Insertion sort with `partyGE` places
each element before strictly smaller amounts and after earlier equal amounts,
which is exactly that reordering. -/
def sortPartiesDesc (l : List Party) : List Party :=
  l.insertionSort partyGE

/-- The greedy matching loop of `generateSettlementsFromNetBalances`
(`settlementService.js` lines 103-129): take
`Δ = min(creditor.amount, debtor.amount)`, emit a transaction when
`Δ > 0.01`, subtract `Δ` from both sides, and advance each side whose
remainder dropped below one cent.  The side attaining the minimum reaches
exactly `0` and always advances; the `c.amount ≤ d.amount` split makes this
explicit. -/
def greedyLoop : List Party → List Party → List Txn
  | [], _ => []
  | _ :: _, [] => []
  | c :: cs, d :: ds =>
    let amt := min c.amount d.amount
    let emitted : List Txn :=
      if 1 / 100 < amt then [⟨d.userId, c.userId, jsRound2 amt⟩] else []
    if c.amount ≤ d.amount then
      if d.amount - amt < 1 / 100 then emitted ++ greedyLoop cs ds
      else emitted ++ greedyLoop cs (⟨d.userId, d.amount - amt⟩ :: ds)
    else
      if c.amount - amt < 1 / 100 then emitted ++ greedyLoop cs ds
      else emitted ++ greedyLoop (⟨c.userId, c.amount - amt⟩ :: cs) ds
termination_by C D => C.length + D.length
decreasing_by all_goals simp only [List.length_cons]; omega

/-- `generateSettlementsFromNetBalances` (`settlementService.js` lines 84-132):
partition the net balances into creditors (`> 0.01`) and debtors (`< -0.01`,
negated), sort each descending by amount, and run the greedy loop.  The source
fills both arrays in one pass over `Object.entries` with an `else if`, which
equals the two `filterMap`s because the guards are mutually exclusive. -/
def generateSettlementsFromNetBalances (netBalances : List (String × ℚ)) :
    List Txn :=
  let creditors := netBalances.filterMap
    (fun e => if 1 / 100 < e.2 then some ⟨e.1, e.2⟩ else none)
  let debtors := netBalances.filterMap
    (fun e => if e.2 < -(1 / 100) then some ⟨e.1, -e.2⟩ else none)
  greedyLoop (sortPartiesDesc creditors) (sortPartiesDesc debtors)

/-- Users whose net balance exceeds one cent in absolute value. -/
def nActive (nets : List (String × ℚ)) : ℕ :=
  (nets.filter (fun e => 1 / 100 < |e.2|)).length

theorem greedyLoop_nil_left (D : List Party) : greedyLoop [] D = [] := by
  rw [greedyLoop]

theorem greedyLoop_nil_right (C : List Party) : greedyLoop C [] = [] := by
  cases C <;> rw [greedyLoop]

theorem greedyLoop_length_le (C D : List Party) :
    (greedyLoop C D).length ≤ C.length + D.length - 1 := by
  generalize hn : C.length + D.length = n
  induction n using Nat.strong_induction_on generalizing C D with
  | _ n ih =>
    match C, D, hn with
    | [], D, hn => rw [greedyLoop]; simp
    | c :: cs, [], hn => rw [greedyLoop_nil_right]; simp
    | c :: cs, d :: ds, hn =>
      simp only [List.length_cons] at hn
      have b1 : (greedyLoop cs ds).length ≤ cs.length + ds.length - 1 :=
        ih (cs.length + ds.length) (by omega) cs ds rfl
      have b2 := ih (cs.length + (ds.length + 1)) (by omega) cs
        (⟨d.userId, d.amount - min c.amount d.amount⟩ :: ds)
        (by simp only [List.length_cons])
      have b3 := ih ((cs.length + 1) + ds.length) (by omega)
        (⟨c.userId, c.amount - min c.amount d.amount⟩ :: cs) ds
        (by simp only [List.length_cons])
      simp only [List.length_cons] at b2 b3
      rw [greedyLoop]
      split_ifs <;>
        simp only [List.length_append, List.length_cons, List.length_nil,
          List.nil_append] <;>
        omega

/-- The creditor and debtor partitions together contain exactly the users
whose net balance exceeds one cent in absolute value. -/
theorem partition_length_eq_nActive (nets : List (String × ℚ)) :
    (nets.filterMap
        (fun e => if 1 / 100 < e.2 then some (⟨e.1, e.2⟩ : Party) else none)).length +
      (nets.filterMap
        (fun e => if e.2 < -(1 / 100) then some (⟨e.1, -e.2⟩ : Party) else none)).length =
      nActive nets := by
  induction nets with
  | nil => rfl
  | cons e rest ih =>
    simp only [List.filterMap_cons, nActive, List.filter_cons] at ih ⊢
    by_cases h1 : 1 / 100 < e.2
    · have h2 : ¬ e.2 < -(1 / 100) := by push_neg; linarith
      have habs : 1 / 100 < |e.2| := lt_of_lt_of_le h1 (le_abs_self e.2)
      simp only [if_pos h1, if_neg h2, List.length_cons]
      rw [if_pos (by simpa using habs)]
      simp only [List.length_cons]
      omega
    · by_cases h2 : e.2 < -(1 / 100)
      · have habs : 1 / 100 < |e.2| :=
          lt_of_lt_of_le (by linarith) (neg_le_abs e.2)
        simp only [if_neg h1, if_pos h2, List.length_cons]
        rw [if_pos (by simpa using habs)]
        simp only [List.length_cons]
        omega
      · have habs : ¬ 1 / 100 < |e.2| := by
          rw [not_lt, abs_le]
          constructor <;> linarith
        simp only [if_neg h1, if_neg h2]
        rw [if_neg (by simpa using habs)]
        omega

/-- C6: the planner emits at most `n - 1` transactions, where `n` is the
number of users whose net balance exceeds one cent in absolute value, and it
returns `[]` whenever `n ≤ 1` — in particular for `n = 0`, for `n = 1`, and
when all debts mutually cancel (every net within one cent). -/
theorem C6_planner_output_cardinality (nets : List (String × ℚ)) :
    (generateSettlementsFromNetBalances nets).length ≤ nActive nets - 1 ∧
    (nActive nets ≤ 1 → generateSettlementsFromNetBalances nets = []) := by
  have hcount := partition_length_eq_nActive nets
  have lc : (sortPartiesDesc (nets.filterMap
      (fun e => if 1 / 100 < e.2 then some (⟨e.1, e.2⟩ : Party) else none))).length =
        (nets.filterMap
      (fun e => if 1 / 100 < e.2 then some (⟨e.1, e.2⟩ : Party) else none)).length := by
    rw [sortPartiesDesc, List.length_insertionSort]
  have ld : (sortPartiesDesc (nets.filterMap
      (fun e => if e.2 < -(1 / 100) then some (⟨e.1, -e.2⟩ : Party) else none))).length =
        (nets.filterMap
      (fun e => if e.2 < -(1 / 100) then some (⟨e.1, -e.2⟩ : Party) else none)).length := by
    rw [sortPartiesDesc, List.length_insertionSort]
  constructor
  · have h := greedyLoop_length_le
      (sortPartiesDesc (nets.filterMap
        (fun e => if 1 / 100 < e.2 then some (⟨e.1, e.2⟩ : Party) else none)))
      (sortPartiesDesc (nets.filterMap
        (fun e => if e.2 < -(1 / 100) then some (⟨e.1, -e.2⟩ : Party) else none)))
    simp only [generateSettlementsFromNetBalances]
    omega
  · intro hle
    simp only [generateSettlementsFromNetBalances]
    have h1 : (nets.filterMap
          (fun e => if 1 / 100 < e.2 then some (⟨e.1, e.2⟩ : Party) else none)).length = 0 ∨
        (nets.filterMap
          (fun e => if e.2 < -(1 / 100) then some (⟨e.1, -e.2⟩ : Party) else none)).length = 0 := by
      omega
    rcases h1 with h1 | h1
    · have hnil : sortPartiesDesc (nets.filterMap
          (fun e => if 1 / 100 < e.2 then some (⟨e.1, e.2⟩ : Party) else none)) = [] :=
        List.length_eq_zero.mp (by omega)
      rw [hnil, greedyLoop_nil_left]
    · have hnil : sortPartiesDesc (nets.filterMap
          (fun e => if e.2 < -(1 / 100) then some (⟨e.1, -e.2⟩ : Party) else none)) = [] :=
        List.length_eq_zero.mp (by omega)
      rw [hnil, greedyLoop_nil_right]

/-- Witness for C6 at the single-user input `[("a", 5)]` (`n = 1`). -/
theorem C6_planner_output_cardinality_witness :
    nActive [(("a" : String), (5 : ℚ))] ≤ 1 ∧
      generateSettlementsFromNetBalances [(("a" : String), (5 : ℚ))] = [] := by
  have h : nActive [(("a" : String), (5 : ℚ))] ≤ 1 := by
    norm_num [nActive, List.filter_cons]
  exact ⟨h, (C6_planner_output_cardinality [("a", 5)]).2 h⟩

/-- Stability of the planner's sort: elements with equal amounts keep their
relative (insertion) order, because the comparator only inspects amounts. -/
theorem filter_amount_sortPartiesDesc (v : ℚ) (l : List Party) :
    (sortPartiesDesc l).filter (fun p => p.amount = v) =
      l.filter (fun p => p.amount = v) := by
  induction l with
  | nil => rfl
  | cons a l ih =>
    simp only [sortPartiesDesc] at ih ⊢
    rw [List.insertionSort, List.orderedInsert_eq_take_drop, List.filter_append]
    have hsplit : (List.insertionSort partyGE l).filter (fun p => p.amount = v) =
        ((List.insertionSort partyGE l).takeWhile fun b => ¬ partyGE a b).filter
            (fun p => p.amount = v) ++
          ((List.insertionSort partyGE l).dropWhile fun b => ¬ partyGE a b).filter
            (fun p => p.amount = v) := by
      rw [← List.filter_append, List.takeWhile_append_dropWhile]
    by_cases ha : a.amount = v
    · have htake : ((List.insertionSort partyGE l).takeWhile
          fun b => ¬ partyGE a b).filter (fun p => p.amount = v) = [] := by
        rw [List.filter_eq_nil_iff]
        intro p hp
        have h2 : ¬ partyGE a p := by
          have := List.mem_takeWhile_imp hp
          simpa using this
        simp only [decide_eq_true_eq]
        intro hpv
        rw [partyGE, not_le, ha] at h2
        exact absurd hpv (ne_of_gt h2)
      have hdrop : ((List.insertionSort partyGE l).dropWhile
          fun b => ¬ partyGE a b).filter (fun p => p.amount = v) =
            l.filter (fun p => p.amount = v) := by
        have h3 := hsplit
        rw [htake, List.nil_append] at h3
        exact h3.symm.trans ih
      rw [htake, List.nil_append]
      rw [List.filter_cons_of_pos (by simpa using ha),
        List.filter_cons_of_pos (by simpa using ha), hdrop]
    · rw [List.filter_cons_of_neg (by simpa using ha),
        List.filter_cons_of_neg (by simpa using ha), ← hsplit, ih]

/-- C7 counterexample: with entries `b` and `a` tied at net `+5` (in that
insertion order) and `z` at net `-10`, the planner emits the transaction to
`b` *before* the one to `a`, although `"a" < "b"` — equal amounts are kept in
entry insertion order by the stable sort, not reordered by ascending
`userId` as the claim states. -/
theorem C7_tie_not_broken_by_userId :
    generateSettlementsFromNetBalances [("b", 5), ("a", 5), ("z", -10)] =
      [⟨"z", "b", 5⟩, ⟨"z", "a", 5⟩] ∧ ("a" : String) < "b" := by
  constructor
  · have hc : List.filterMap
        (fun e => if 1 / 100 < e.2 then some (⟨e.1, e.2⟩ : Party) else none)
        [(("b" : String), (5 : ℚ)), ("a", 5), ("z", -10)] =
          [⟨"b", 5⟩, ⟨"a", 5⟩] := by
      norm_num [List.filterMap_cons]
    have hd : List.filterMap
        (fun e => if e.2 < -(1 / 100) then some (⟨e.1, -e.2⟩ : Party) else none)
        [(("b" : String), (5 : ℚ)), ("a", 5), ("z", -10)] =
          [⟨"z", 10⟩] := by
      norm_num [List.filterMap_cons]
    simp only [generateSettlementsFromNetBalances, hc, hd]
    have hsc : sortPartiesDesc [⟨"b", 5⟩, ⟨"a", 5⟩] = [⟨"b", 5⟩, ⟨"a", 5⟩] := by
      norm_num [sortPartiesDesc, List.insertionSort, List.orderedInsert, partyGE]
    have hsd : sortPartiesDesc [⟨"z", 10⟩] = [⟨"z", 10⟩] := by
      norm_num [sortPartiesDesc, List.insertionSort, List.orderedInsert, partyGE]
    rw [hsc, hsd]
    rw [greedyLoop]
    norm_num [min_def, jsRound2, jsRound]
    rw [greedyLoop]
    norm_num [min_def, jsRound2, jsRound]
    rw [greedyLoop]
  · rw [String.lt_iff_toList_lt]
    decide

/-- C7 (amended): the planner is deterministic — equal ordered entry lists
give identical output lists — and ties on amount are processed in the entry
list's insertion order (the sort is stable and only compares amounts); they
are *not* reordered by ascending `userId`. -/
theorem C7_planner_deterministic_and_stable :
    (∀ nets1 nets2 : List (String × ℚ), nets1 = nets2 →
        generateSettlementsFromNetBalances nets1 =
          generateSettlementsFromNetBalances nets2) ∧
    ∀ (l : List Party) (v : ℚ),
      (sortPartiesDesc l).filter (fun p => p.amount = v) =
        l.filter (fun p => p.amount = v) :=
  ⟨fun _ _ h => by rw [h], fun l v => filter_amount_sortPartiesDesc v l⟩

/-- Witness for C7 (amended) at a concrete input. -/
theorem C7_planner_deterministic_and_stable_witness :
    generateSettlementsFromNetBalances [(("a" : String), (5 : ℚ))] =
      generateSettlementsFromNetBalances [(("a" : String), (5 : ℚ))] :=
  C7_planner_deterministic_and_stable.1 [("a", 5)] [("a", 5)] rfl

theorem jsRound2_pos {x : ℚ} (hx : 1 / 100 < x) : 0 < jsRound2 x := by
  rw [jsRound2, jsRound]
  have h1 : (1 : ℤ) ≤ ⌊x * 100 + 1 / 2⌋ := by
    rw [Int.le_floor]
    push_cast
    nlinarith
  have h2 : (0 : ℚ) < ((⌊x * 100 + 1 / 2⌋ : ℤ) : ℚ) := by
    exact_mod_cast lt_of_lt_of_le zero_lt_one h1
  exact div_pos h2 (by norm_num)

/-- Every transaction emitted by the greedy loop pays some creditor of the
input creditor list from some debtor of the input debtor list, with a
strictly positive amount (the emission guard is `Δ > 0.01`). -/
theorem greedyLoop_mem (C D : List Party) :
    ∀ t ∈ greedyLoop C D,
      (∃ p ∈ C, t.to_ = p.userId) ∧ (∃ q ∈ D, t.from_ = q.userId) ∧
        0 < t.amount := by
  generalize hn : C.length + D.length = n
  induction n using Nat.strong_induction_on generalizing C D with
  | _ n ih =>
    match C, D, hn with
    | [], D, hn => rw [greedyLoop_nil_left]; intro t ht; simp at ht
    | c :: cs, [], hn => rw [greedyLoop_nil_right]; intro t ht; simp at ht
    | c :: cs, d :: ds, hn =>
      simp only [List.length_cons] at hn
      intro t ht
      rw [greedyLoop] at ht
      have hemit : ∀ _ : 1 / 100 < min c.amount d.amount,
          t = (⟨d.userId, c.userId, jsRound2 (min c.amount d.amount)⟩ : Txn) →
          (∃ p ∈ c :: cs, t.to_ = p.userId) ∧
            (∃ q ∈ d :: ds, t.from_ = q.userId) ∧ 0 < t.amount := by
        intro h heq
        subst heq
        exact ⟨⟨c, List.mem_cons_self _ _, rfl⟩, ⟨d, List.mem_cons_self _ _, rfl⟩,
          jsRound2_pos h⟩
      have hlift : ∀ (C' D' : List Party),
          (∀ p ∈ C', p ∈ c :: cs ∨ p.userId = c.userId) →
          (∀ q ∈ D', q ∈ d :: ds ∨ q.userId = d.userId) →
          C'.length + D'.length < n →
          t ∈ greedyLoop C' D' →
          (∃ p ∈ c :: cs, t.to_ = p.userId) ∧
            (∃ q ∈ d :: ds, t.from_ = q.userId) ∧ 0 < t.amount := by
        intro C' D' hC hD hlt htr
        obtain ⟨⟨p, hp, hp2⟩, ⟨q, hq, hq2⟩, hpos⟩ :=
          ih (C'.length + D'.length) hlt C' D' rfl t htr
        refine ⟨?_, ?_, hpos⟩
        · rcases hC p hp with h | h
          · exact ⟨p, h, hp2⟩
          · exact ⟨c, List.mem_cons_self _ _, by rw [hp2, h]⟩
        · rcases hD q hq with h | h
          · exact ⟨q, h, hq2⟩
          · exact ⟨d, List.mem_cons_self _ _, by rw [hq2, h]⟩
      split_ifs at ht with hcd hd he he hc he he <;>
        rcases List.mem_append.mp ht with hmem | hmem <;>
        first
          | (exact hemit (by assumption) (by simpa using hmem))
          | (simp only [List.mem_singleton, List.not_mem_nil] at hmem)
          | (refine hlift _ _ ?_ ?_ ?_ hmem <;>
              first
                | (intro p hp; exact Or.inl (List.mem_cons_of_mem _ hp))
                | (intro q hq
                   rcases List.mem_cons.mp hq with rfl | hq2
                   · exact Or.inr rfl
                   · exact Or.inl (List.mem_cons_of_mem _ hq2))
                | ((try simp only [List.length_cons]); omega))

/-- In a list with pairwise distinct keys, a key determines its value. -/
theorem nodup_fst_eq {l : List (String × ℚ)} (h : (l.map Prod.fst).Nodup)
    {a : String} {b1 b2 : ℚ} (h1 : (a, b1) ∈ l) (h2 : (a, b2) ∈ l) :
    b1 = b2 := by
  induction l with
  | nil => simp at h1
  | cons e rest ih =>
    rw [List.map_cons, List.nodup_cons] at h
    rcases List.mem_cons.mp h1 with he1 | h1'
    · rcases List.mem_cons.mp h2 with he2 | h2'
      · rw [← he1] at he2
        injection he2 with _ hb
        exact hb.symm
      · exfalso
        apply h.1
        rw [← he1]
        exact List.mem_map.mpr ⟨(a, b2), h2', rfl⟩
    · rcases List.mem_cons.mp h2 with he2 | h2'
      · exfalso
        apply h.1
        rw [← he2]
        exact List.mem_map.mpr ⟨(a, b1), h1', rfl⟩
      · exact ih h.2 h1' h2'

/-- C10: when the net-balance entries have pairwise distinct user ids (as
`Object.entries` of a JavaScript object always yields), every transaction
emitted by the planner is well-formed: strictly positive amount and
`from ≠ to`. -/
theorem C10_planner_txns_wellformed (nets : List (String × ℚ))
    (hnodup : (nets.map Prod.fst).Nodup) :
    ∀ t ∈ generateSettlementsFromNetBalances nets,
      0 < t.amount ∧ t.from_ ≠ t.to_ := by
  intro t ht
  simp only [generateSettlementsFromNetBalances] at ht
  obtain ⟨⟨p, hp, hp2⟩, ⟨q, hq, hq2⟩, hpos⟩ := greedyLoop_mem _ _ t ht
  refine ⟨hpos, ?_⟩
  rw [sortPartiesDesc, List.mem_insertionSort] at hp hq
  rw [List.mem_filterMap] at hp hq
  obtain ⟨ep, hep, hep2⟩ := hp
  obtain ⟨eq_, heq, heq2⟩ := hq
  by_cases hc1 : 1 / 100 < ep.2
  case neg => rw [if_neg hc1] at hep2; exact absurd hep2 (by simp)
  rw [if_pos hc1] at hep2
  by_cases hc2 : eq_.2 < -(1 / 100)
  case neg => rw [if_neg hc2] at heq2; exact absurd heq2 (by simp)
  rw [if_pos hc2] at heq2
  injection hep2 with hep3
  injection heq2 with heq3
  intro hcontr
  rw [hq2, hp2, ← heq3, ← hep3] at hcontr
  have hcontr2 : eq_.1 = ep.1 := hcontr
  have h1 : (eq_.1, eq_.2) ∈ nets := heq
  have h2 : (eq_.1, ep.2) ∈ nets := by rw [hcontr2]; exact hep
  have hsame := nodup_fst_eq hnodup h1 h2
  linarith

/-- Concrete planner run used by the C10 witness. -/
theorem planner_eval_two_users :
    generateSettlementsFromNetBalances [("a", 5), ("b", -5)] =
      [⟨"b", "a", 5⟩] := by
  have hc : List.filterMap
      (fun e => if 1 / 100 < e.2 then some (⟨e.1, e.2⟩ : Party) else none)
      [(("a" : String), (5 : ℚ)), ("b", -5)] = [⟨"a", 5⟩] := by
    norm_num [List.filterMap_cons]
  have hd : List.filterMap
      (fun e => if e.2 < -(1 / 100) then some (⟨e.1, -e.2⟩ : Party) else none)
      [(("a" : String), (5 : ℚ)), ("b", -5)] = [⟨"b", 5⟩] := by
    norm_num [List.filterMap_cons]
  simp only [generateSettlementsFromNetBalances, hc, hd]
  have hsc : sortPartiesDesc [(⟨"a", 5⟩ : Party)] = [⟨"a", 5⟩] := by
    norm_num [sortPartiesDesc, List.insertionSort, List.orderedInsert]
  have hsd : sortPartiesDesc [(⟨"b", 5⟩ : Party)] = [⟨"b", 5⟩] := by
    norm_num [sortPartiesDesc, List.insertionSort, List.orderedInsert]
  rw [hsc, hsd]
  rw [greedyLoop]
  norm_num [min_def, jsRound2, jsRound]
  rw [greedyLoop]

/-- Witness for C10: the single transaction emitted for nets
`[("a", 5), ("b", -5)]` has a positive amount and distinct endpoints. -/
theorem C10_planner_txns_wellformed_witness :
    0 < ((⟨"b", "a", 5⟩ : Txn)).amount ∧
      ((⟨"b", "a", 5⟩ : Txn)).from_ ≠ ((⟨"b", "a", 5⟩ : Txn)).to_ :=
  C10_planner_txns_wellformed [("a", 5), ("b", -5)] (by decide)
    ⟨"b", "a", 5⟩
    (by rw [planner_eval_two_users]; exact List.mem_singleton_self _)

/-! ### The split calculator (`splitCalculator.js`) -/

/-- A participant object `{userId, amount?, percentage?}` as passed to the
split calculator. -/
structure Participant where
  userId : String
  amount : Option ℚ := none
  percentage : Option ℚ := none
  deriving DecidableEq

/-- `calculateEqualSplit` (`splitCalculator.js` lines 34-43): divide the total
by the number of participants with JavaScript `/`, exclude the payer, and give
every remaining participant `Math.round(perPerson * 100) / 100`.  (For an
empty participant list the JavaScript division yields `Infinity`; the model is
faithful for non-empty lists.) -/
def calculateEqualSplit (totalAmount : ℚ) (participants : List Participant)
    (payerId : String) : List (String × ℚ) :=
  let perPerson := totalAmount / participants.length
  (participants.filter (fun p => ¬ p.userId = payerId)).map
    (fun p => (p.userId, jsRound2 perPerson))

/-- Modelled from the spec: the EQUAL split of §4.1 in integer cents — payer
included in the denominator, `floor(amount/n)` per participant, remainder
cents one each to the first `amount mod n` participants in `userId` ascending
order (a cent landing on the payer stays with the payer), payer not
emitted. -/
def specEqualSplit (amount : ℤ) (participants : List String)
    (payerId : String) : List (String × ℤ) :=
  let n : ℤ := participants.length
  let base := Int.fdiv amount n
  let rem := Int.fmod amount n
  (((participants.insertionSort (· ≤ ·)).enum).map
      (fun e => (e.2, base + if (e.1 : ℤ) < rem then 1 else 0))).filter
    (fun e => ¬ e.1 = payerId)

/-- C2 counterexample: for amount `100` split equally among participants
`1` (payer), `2`, `3`, the code emits `33.33` for each non-payer
(`Math.round(100/3 * 100)/100`), not the spec's floor-and-remainder shares of
`33` integer cents, so the produced splits differ from the spec formula. -/
theorem C2_equalSplit_not_floor_remainder :
    calculateEqualSplit 100
        [⟨"1", none, none⟩, ⟨"2", none, none⟩, ⟨"3", none, none⟩] "1" ≠
      (specEqualSplit 100 ["1", "2", "3"] "1").map
        (fun e => (e.1, (e.2 : ℚ))) := by
  have hcode : calculateEqualSplit 100
      [⟨"1", none, none⟩, ⟨"2", none, none⟩, ⟨"3", none, none⟩] "1" =
      [("2", 3333 / 100), ("3", 3333 / 100)] := by
    norm_num [calculateEqualSplit, jsRound2, jsRound, List.filter_cons]
    simp
  have hsort : (["1", "2", "3"] : List String).insertionSort (· ≤ ·) =
      ["1", "2", "3"] := by
    simp [List.insertionSort, List.orderedInsert]
    decide
  have hspec : specEqualSplit 100 ["1", "2", "3"] "1" = [("2", 33), ("3", 33)] := by
    simp only [specEqualSplit, hsort]
    decide
  rw [hcode, hspec]
  intro h
  simp only [List.map_cons, List.map_nil] at h
  injection h with h1 _
  injection h1 with _ h1b
  norm_num at h1b

theorem sum_map_const {α : Type} (l : List α) (c : ℚ) :
    (l.map (fun _ => c)).sum = (l.length : ℚ) * c := by
  induction l with
  | nil => simp
  | cons a l ih =>
    simp only [List.map_cons, List.sum_cons, List.length_cons, ih]
    push_cast
    ring

/-- C2 (amended): for a non-empty participant list, the equal split excludes
the payer and gives every non-payer the *same* amount
`Math.round(100 * amount / n) / 100` (`n` counting the payer); the sum of the
splits is that share times the number of non-payers — there is no
floor-and-remainder distribution, and no exact-sum guarantee. -/
theorem C2_equalSplit_uniform_share (totalAmount : ℚ)
    (participants : List Participant) (payerId : String)
    (hne : participants ≠ []) :
    (∀ e ∈ calculateEqualSplit totalAmount participants payerId,
        ¬ e.1 = payerId ∧
          e.2 = jsRound2 (totalAmount / participants.length)) ∧
    ((calculateEqualSplit totalAmount participants payerId).map (·.2)).sum =
      ((participants.filter (fun p => ¬ p.userId = payerId)).length : ℚ) *
        jsRound2 (totalAmount / participants.length) := by
  constructor
  · intro e he
    simp only [calculateEqualSplit, List.mem_map, List.mem_filter] at he
    obtain ⟨p, ⟨hp, hp2⟩, rfl⟩ := he
    exact ⟨by simpa using hp2, rfl⟩
  · simp only [calculateEqualSplit]
    rw [List.map_map]
    have hc : ((fun x : String × ℚ => x.2) ∘
        (fun p : Participant =>
          (p.userId, jsRound2 (totalAmount / participants.length)))) =
        fun _ => jsRound2 (totalAmount / participants.length) := rfl
    rw [hc, sum_map_const]

/-- Witness for C2 (amended) with payer `1` and one non-payer `2`. -/
theorem C2_equalSplit_uniform_share_witness :
    ((calculateEqualSplit 100 [⟨"1", none, none⟩, ⟨"2", none, none⟩] "1").map
        (·.2)).sum =
      ((([⟨"1", none, none⟩, ⟨"2", none, none⟩] : List Participant).filter
          (fun p => ¬ p.userId = "1")).length : ℚ) *
        jsRound2 (100 /
          (([⟨"1", none, none⟩, ⟨"2", none, none⟩] : List Participant).length)) :=
  (C2_equalSplit_uniform_share 100 _ "1" (by simp)).2

/-! ### The aggregated user balance view -/

/-- `Balance.find({debtor: u, amount: {$gt: 0}})`. -/
def scanByDebtor (s : Store) (u : UserId) : Store :=
  s.filter (fun r => decide (r.debtor = u ∧ 0 < r.amount))

/-- `Balance.find({creditor: u, amount: {$gt: 0}})`. -/
def scanByCreditor (s : Store) (u : UserId) : Store :=
  s.filter (fun r => decide (r.creditor = u ∧ 0 < r.amount))

/-- One step of the `map.set(k, (map.get(k) || 0) + amount)` folds in
`getUserBalances` (`balanceServiceV2.js` lines 197-205): JavaScript `Map.set`
updates an existing key in place and appends a new key at the end. -/
def bumpMap : List (UserId × ℚ) → UserId → ℚ → List (UserId × ℚ)
  | [], k, v => [(k, v)]
  | (k', v') :: rest, k, v =>
    if k' = k then (k', v' + v) :: rest else (k', v') :: bumpMap rest k v

/-- `getUserBalances` of `balanceServiceV2.js` (lines 183-247), restricted to
the owes/owed amount maps the claim is about (the source additionally joins
user display data and computes totals): balances from *all* scopes where `u`
is debtor are summed per creditor, and balances where `u` is creditor are
summed per debtor, each side separately. -/
def getUserBalancesV2 (s : Store) (u : UserId) :
    List (UserId × ℚ) × List (UserId × ℚ) :=
  ((scanByDebtor s u).foldl (fun m r => bumpMap m r.creditor r.amount) [],
   (scanByCreditor s u).foldl (fun m r => bumpMap m r.debtor r.amount) [])

/-- `map.get(k)` on the insertion-ordered map. -/
def mlookup : List (UserId × ℚ) → UserId → Option ℚ
  | [], _ => none
  | e :: rest, k => if e.1 = k then some e.2 else mlookup rest k

theorem mlookup_bumpMap_same (m : List (UserId × ℚ)) (k : UserId) (v : ℚ) :
    mlookup (bumpMap m k v) k = some ((mlookup m k).getD 0 + v) := by
  induction m with
  | nil => simp [bumpMap, mlookup]
  | cons e rest ih =>
    obtain ⟨k0, v0⟩ := e
    rw [bumpMap]
    by_cases hk : k0 = k
    · subst hk
      rw [if_pos rfl, mlookup, if_pos rfl, mlookup, if_pos rfl]
      rfl
    · rw [if_neg hk, mlookup, mlookup]
      simp only at *
      rw [if_neg hk, if_neg hk]
      exact ih

theorem mlookup_bumpMap_ne (m : List (UserId × ℚ)) {k k' : UserId} (v : ℚ)
    (h : ¬ k' = k) : mlookup (bumpMap m k v) k' = mlookup m k' := by
  induction m with
  | nil =>
    simp only [bumpMap, mlookup]
    rw [if_neg (by simpa using fun hh => h hh.symm)]
  | cons e rest ih =>
    obtain ⟨k0, v0⟩ := e
    rw [bumpMap]
    by_cases hk : k0 = k
    · subst hk
      rw [if_pos rfl, mlookup, mlookup]
      by_cases hk2 : k0 = k'
      · exact absurd hk2.symm h
      · simp only at *
        rw [if_neg hk2, if_neg hk2]
    · rw [if_neg hk, mlookup, mlookup]
      simp only at *
      by_cases hk2 : k0 = k'
      · rw [if_pos hk2, if_pos hk2]
      · rw [if_neg hk2, if_neg hk2]
        exact ih

/-- Folding `bumpMap` over rows yields, for any key that occurs among the rows
or in the accumulator, the accumulator value plus the sum of that key's row
values. -/
theorem mlookup_foldl_bump (kf : BalRow → UserId) (vf : BalRow → ℚ)
    (rows : List BalRow) :
    ∀ (m0 : List (UserId × ℚ)) (k : UserId),
      ((∃ r ∈ rows, kf r = k) ∨ (mlookup m0 k).isSome) →
      mlookup (rows.foldl (fun m r => bumpMap m (kf r) (vf r)) m0) k =
        some ((mlookup m0 k).getD 0 +
          ((rows.filter (fun r => kf r = k)).map vf).sum) := by
  induction rows with
  | nil =>
    intro m0 k hex
    rcases hex with ⟨r, hr, _⟩ | hsome
    · simp at hr
    · rw [List.foldl_nil, List.filter_nil, List.map_nil, List.sum_nil, add_zero]
      cases hm : mlookup m0 k with
      | none => rw [hm] at hsome; simp at hsome
      | some v => simp [hm]
  | cons r rest ih =>
    intro m0 k hex
    rw [List.foldl_cons, List.filter_cons]
    by_cases hk : kf r = k
    · rw [if_pos (by simpa using hk)]
      rw [ih (bumpMap m0 (kf r) (vf r)) k
        (Or.inr (by rw [hk, mlookup_bumpMap_same]; rfl))]
      rw [hk, mlookup_bumpMap_same]
      simp only [Option.getD_some, List.map_cons, List.sum_cons]
      congr 1
      ring
    · rw [if_neg (by simpa using hk)]
      have hm : mlookup (bumpMap m0 (kf r) (vf r)) k = mlookup m0 k :=
        mlookup_bumpMap_ne m0 (vf r) (fun hh => hk hh.symm)
      rw [ih (bumpMap m0 (kf r) (vf r)) k ?_, hm]
      rcases hex with ⟨r2, hr2, hk2⟩ | hsome
      · rcases List.mem_cons.mp hr2 with rfl | hr3
        · exact absurd hk2 hk
        · exact Or.inl ⟨r2, hr3, hk2⟩
      · rw [hm]
        exact Or.inr hsome

theorem mem_of_mlookup {m : List (UserId × ℚ)} {k : UserId} {v : ℚ}
    (h : mlookup m k = some v) : (k, v) ∈ m := by
  induction m with
  | nil => simp [mlookup] at h
  | cons e rest ih =>
    rw [mlookup] at h
    by_cases hk : e.1 = k
    · rw [if_pos hk] at h
      injection h with h2
      obtain ⟨k0, v0⟩ := e
      simp only at hk h2
      rw [hk, h2] at *
      exact List.mem_cons_self _ _
    · rw [if_neg hk] at h
      exact List.mem_cons_of_mem _ (ih h)

/-- C8 (amended): the V2 aggregated view (`balanceServiceV2.getUserBalances`,
the default `USE_BALANCE_V2` path) sums per counterparty within each side
separately and never cancels across scopes: a user who owes `X` in one scope
and is owed by `X` in another sees `X` on *both* sides, each with the
cross-scope sum for that side. -/
theorem C8_v2_view_no_cross_scope_cancellation (s : Store) (u X : UserId)
    (r1 : BalRow) (hr1 : r1 ∈ s) (h1d : r1.debtor = u) (h1c : r1.creditor = X)
    (h1a : 0 < r1.amount)
    (r2 : BalRow) (hr2 : r2 ∈ s) (h2d : r2.debtor = X) (h2c : r2.creditor = u)
    (h2a : 0 < r2.amount) (hscope : r1.group ≠ r2.group) :
    mlookup (getUserBalancesV2 s u).1 X =
      some ((((scanByDebtor s u).filter (fun r => r.creditor = X)).map
        (·.amount)).sum) ∧
    mlookup (getUserBalancesV2 s u).2 X =
      some ((((scanByCreditor s u).filter (fun r => r.debtor = X)).map
        (·.amount)).sum) ∧
    (X, (((scanByDebtor s u).filter (fun r => r.creditor = X)).map
        (·.amount)).sum) ∈ (getUserBalancesV2 s u).1 ∧
    (X, (((scanByCreditor s u).filter (fun r => r.debtor = X)).map
        (·.amount)).sum) ∈ (getUserBalancesV2 s u).2 := by
  have howes : mlookup (getUserBalancesV2 s u).1 X =
      some ((((scanByDebtor s u).filter (fun r => r.creditor = X)).map
        (·.amount)).sum) := by
    have h := mlookup_foldl_bump (fun r => r.creditor) (fun r => r.amount)
      (scanByDebtor s u) [] X
      (Or.inl ⟨r1, List.mem_filter.mpr ⟨hr1, by simp [h1d, h1a]⟩, h1c⟩)
    rw [show mlookup [] X = none from rfl] at h
    simpa [getUserBalancesV2] using h
  have howed : mlookup (getUserBalancesV2 s u).2 X =
      some ((((scanByCreditor s u).filter (fun r => r.debtor = X)).map
        (·.amount)).sum) := by
    have h := mlookup_foldl_bump (fun r => r.debtor) (fun r => r.amount)
      (scanByCreditor s u) [] X
      (Or.inl ⟨r2, List.mem_filter.mpr ⟨hr2, by simp [h2c, h2a]⟩, h2d⟩)
    rw [show mlookup [] X = none from rfl] at h
    simpa [getUserBalancesV2] using h
  exact ⟨howes, howed, mem_of_mlookup howes, mem_of_mlookup howed⟩

/-- `getUserOwes` of `BalanceCalculator` (`balanceCalculator.js` lines
94-107) at the pair level: positive bindings of row `u`. -/
def getUserOwesCalc (s : BalState) (u : UserId) : List (UserId × ℚ) :=
  (s.filter (fun e => decide (e.1.1 = u ∧ 0 < e.2))).map (fun e => (e.1.2, e.2))

/-- `getUserOwed` of `BalanceCalculator` (`balanceCalculator.js` lines
112-123) at the pair level. -/
def getUserOwedCalc (s : BalState) (u : UserId) : List (UserId × ℚ) :=
  (s.filter (fun e => decide (e.1.2 = u ∧ 0 < e.2))).map (fun e => (e.1.1, e.2))

/-- Legacy `getUserBalances` (`balanceService.js` lines 121-184): every group
matrix entry and every direct balance involving `u` is replayed through one
shared `BalanceCalculator` via `addDebt` — which cancels mutual debts *across
scopes* — and the owes/owed view is then read off that calculator.  Direct
rows are `(debtor, creditor, amount)` triples. -/
def getUserBalancesLegacy (groupMatrices : List BalState)
    (directRows : List (UserId × UserId × ℚ)) (u : UserId) :
    List (UserId × ℚ) × List (UserId × ℚ) :=
  let cal0 := groupMatrices.foldl
    (fun cal m => m.foldl (fun cal e => addDebt cal e.1.1 e.1.2 e.2) cal) []
  let directOwes := directRows.filter (fun r => decide (r.1 = u ∧ 0 < r.2.2))
  let directOwed := directRows.filter (fun r => decide (r.2.1 = u ∧ 0 < r.2.2))
  let cal1 := directOwes.foldl (fun cal r => addDebt cal r.1 r.2.1 r.2.2) cal0
  let cal2 := directOwed.foldl (fun cal r => addDebt cal r.1 r.2.1 r.2.2) cal1
  (getUserOwesCalc cal2 u, getUserOwedCalc cal2 u)

/-- C8 counterexample: with a group balance `u → X` of `50` and a direct
balance `X → u` of `30`, the legacy view cancels across the two scopes: it
reports `u owes X 20` and an *empty* owed list — `X` does not appear on the
owed side, although `X` owes `u` a positive amount in the direct scope. -/
theorem C8_legacy_view_cancels_across_scopes :
    (getUserBalancesLegacy [[(("u", "X"), 50)]] [("X", "u", 30)] "u").2 = [] ∧
    (getUserBalancesLegacy [[(("u", "X"), 50)]] [("X", "u", 30)] "u").1 =
      [("X", 20)] := by
  have h1 : addDebt ([] : BalState) "u" "X" 50 = [(("u", "X"), 50)] := by
    rw [addDebt, if_neg (not_or.mpr ⟨by decide, by norm_num⟩)]
    rw [show getBal ([] : BalState) "X" "u" = 0 from rfl,
      if_neg (lt_irrefl 0),
      show getBal ([] : BalState) "u" "X" = 0 from rfl, zero_add]
    rfl
  have h2 : addDebt [(("u", "X"), 50)] "X" "u" 30 = [(("u", "X"), 20)] := by
    rw [addDebt, if_neg (not_or.mpr ⟨by decide, by norm_num⟩)]
    rw [show getBal [(("u", "X"), 50)] "u" "X" = 50 from by decide]
    rw [if_pos (by norm_num), if_pos (by norm_num), if_neg (by norm_num)]
    norm_num [setBal]
  have hview : getUserBalancesLegacy [[(("u", "X"), 50)]] [("X", "u", 30)] "u" =
      (getUserOwesCalc [(("u", "X"), 20)] "u",
        getUserOwedCalc [(("u", "X"), 20)] "u") := by
    simp only [getUserBalancesLegacy, List.foldl_cons, List.foldl_nil, h1]
    norm_num [List.filter_cons, List.filter_nil]
    rw [if_neg (show ¬ ("X" : String) = "u" by decide)]
    simp only [List.foldl_nil, h2]
    exact ⟨trivial, trivial⟩
  rw [hview]
  constructor
  · norm_num [getUserOwedCalc, List.filter_cons]
    try decide
  · norm_num [getUserOwesCalc, List.filter_cons]
    try decide

/-- Witness for C8 (amended): a two-row store with a group debt `u → X` and a
direct debt `X → u`; `X` appears on both sides with the per-side sums. -/
theorem C8_v2_view_no_cross_scope_cancellation_witness :
    mlookup (getUserBalancesV2
        [⟨some "G", "u", "X", 50⟩, ⟨none, "X", "u", 30⟩] "u").1 "X" =
      some ((((scanByDebtor
          [⟨some "G", "u", "X", 50⟩, ⟨none, "X", "u", 30⟩] "u").filter
            (fun r => r.creditor = "X")).map (·.amount)).sum) :=
  (C8_v2_view_no_cross_scope_cancellation
    [⟨some "G", "u", "X", 50⟩, ⟨none, "X", "u", 30⟩] "u" "X"
    ⟨some "G", "u", "X", 50⟩ (by simp) rfl rfl (by norm_num)
    ⟨none, "X", "u", 30⟩ (by simp) rfl rfl (by norm_num)
    (by simp)).1

/-! ### Recompute vs incremental updates (`balanceServiceV2.js`) -/

/-- An expense as replayed by `recalculateGroupBalances`: the payer and the
derived splits `{userId, amount}`. -/
structure ExpenseE where
  payerId : UserId
  splits : List (UserId × ℚ)

/-- One split step of `updateBalances` (`balanceServiceV2.js` lines 34-81) on
the group's slice of the Balance collection, pair-keyed; a reverse row
decremented to `0` (or zeroed before a flip) is *saved*, not deleted, and the
forward write is `$inc` with upsert.  The payer's own split and non-positive
amounts are skipped, and a reverse row counts only if its amount is
positive. -/
def applySplitV2 (store : BalState) (payerId : UserId) (split : UserId × ℚ) :
    BalState :=
  if split.1 = payerId ∨ split.2 ≤ 0 then store
  else
    let debtorId := split.1
    let creditorId := payerId
    let reverseAmt := getBal store creditorId debtorId
    if 0 < reverseAmt then
      if split.2 ≤ reverseAmt then
        setBal store creditorId debtorId (reverseAmt - split.2)
      else
        let store1 := setBal store creditorId debtorId 0
        setBal store1 debtorId creditorId
          (getBal store1 debtorId creditorId + (split.2 - reverseAmt))
    else
      setBal store debtorId creditorId (getBal store debtorId creditorId + split.2)

/-- `updateBalances` for one expense: its splits applied in order. -/
def applyExpenseV2 (store : BalState) (e : ExpenseE) : BalState :=
  e.splits.foldl (fun st sp => applySplitV2 st e.payerId sp) store

/-- The incremental path: every expense posted through `updateBalances`,
in order, starting from an empty scope. -/
def incrementalStore (es : List ExpenseE) : BalState :=
  es.foldl applyExpenseV2 []

/-- The replay loop of `recalculateGroupBalances` (`balanceServiceV2.js`
lines 336-344): each non-payer split goes through
`BalanceCalculator.addDebt`. -/
def applyExpenseCalc (cal : BalState) (e : ExpenseE) : BalState :=
  e.splits.foldl
    (fun cal sp =>
      if sp.1 = e.payerId then cal else addDebt cal sp.1 e.payerId sp.2)
    cal

/-- The calculator state after replaying the whole expense log. -/
def replayCalc (es : List ExpenseE) : BalState :=
  es.foldl applyExpenseCalc []

/-- The rows written back by `recalculateGroupBalances` (lines 347-369): one
document per calculator entry with `amount > 0`. -/
def recomputedRows (es : List ExpenseE) : BalState :=
  (replayCalc es).filter (fun e => decide (0 < e.2))

/-- The store and the calculator agree on every pair's amount. -/
def Agrees (store cal : BalState) : Prop :=
  ∀ d c, getBal store d c = getBal cal d c

theorem nonNeg_of_entriesPos {s : BalState} (h : EntriesPos s) : NonNeg s :=
  fun e he => le_of_lt (h e he)

/-- One split: the V2 store update and the calculator's `addDebt` stay in
agreement (the V2 path keeps zero rows where the calculator deletes, which
`getBal` does not distinguish). -/
theorem applySplitV2_agrees {store cal : BalState} (payerId : UserId)
    (sp : UserId × ℚ) (hag : Agrees store cal) (hpos : EntriesPos cal)
    (hn1 : N1 cal) :
    Agrees (applySplitV2 store payerId sp)
      (if sp.1 = payerId then cal else addDebt cal sp.1 payerId sp.2) := by
  by_cases hsp : sp.1 = payerId
  · rw [applySplitV2, if_pos (Or.inl hsp), if_pos hsp]
    exact hag
  · rw [if_neg hsp]
    by_cases ha : sp.2 ≤ 0
    · rw [applySplitV2, if_pos (Or.inr ha), addDebt, if_pos (Or.inr ha)]
      exact hag
    · have hguard : ¬ (sp.1 = payerId ∨ sp.2 ≤ 0) := not_or.mpr ⟨hsp, ha⟩
      simp only [applySplitV2, addDebt]
      rw [if_neg hguard, if_neg hguard, hag payerId sp.1]
      by_cases hrev : 0 < getBal cal payerId sp.1
      · rw [if_pos hrev, if_pos hrev]
        by_cases hle : sp.2 ≤ getBal cal payerId sp.1
        · rw [if_pos hle, if_pos hle]
          by_cases hz : getBal cal payerId sp.1 - sp.2 = 0
          · rw [if_pos hz]
            intro x y
            rw [getBal_setBal, getBal_eraseBal]
            by_cases hk : x = payerId ∧ y = sp.1
            · rw [if_pos hk, if_pos hk, hz]
            · rw [if_neg hk, if_neg hk]; exact hag x y
          · rw [if_neg hz]
            intro x y
            rw [getBal_setBal, getBal_setBal]
            by_cases hk : x = payerId ∧ y = sp.1
            · rw [if_pos hk, if_pos hk]
            · rw [if_neg hk, if_neg hk]; exact hag x y
        · rw [if_neg hle, if_neg hle]
          have hfz : getBal cal sp.1 payerId = 0 := by
            have h1 : ¬ 0 < getBal cal sp.1 payerId :=
              fun hcon => hn1 sp.1 payerId ⟨hcon, hrev⟩
            exact le_antisymm (not_lt.mp h1)
              (getBal_nonneg (nonNeg_of_entriesPos hpos) sp.1 payerId)
          have hk1 : ¬ (sp.1 = payerId ∧ payerId = sp.1) :=
            fun hcon => hsp hcon.1
          have hstore1 : getBal (setBal store payerId sp.1 0) sp.1 payerId =
              getBal store sp.1 payerId := by
            rw [getBal_setBal, if_neg hk1]
          intro x y
          rw [hstore1, hag sp.1 payerId, hfz, zero_add]
          simp only [getBal_setBal, getBal_eraseBal]
          by_cases hk : x = sp.1 ∧ y = payerId
          · rw [if_pos hk, if_pos hk]
          · rw [if_neg hk, if_neg hk]
            by_cases hk2 : x = payerId ∧ y = sp.1
            · rw [if_pos hk2, if_pos hk2]
            · rw [if_neg hk2, if_neg hk2]
              exact hag x y
      · rw [if_neg hrev, if_neg hrev]
        intro x y
        rw [getBal_setBal, getBal_setBal]
        by_cases hk : x = sp.1 ∧ y = payerId
        · rw [if_pos hk, if_pos hk, hag sp.1 payerId]
        · rw [if_neg hk, if_neg hk]; exact hag x y

/-- The calculator side of one split step preserves positivity and N1. -/
theorem calcStep_invariants {cal : BalState} (payerId : UserId)
    (sp : UserId × ℚ) (hpos : EntriesPos cal) (hn1 : N1 cal) :
    EntriesPos (if sp.1 = payerId then cal else addDebt cal sp.1 payerId sp.2) ∧
      N1 (if sp.1 = payerId then cal else addDebt cal sp.1 payerId sp.2) := by
  by_cases hsp : sp.1 = payerId
  · rw [if_pos hsp]; exact ⟨hpos, hn1⟩
  · rw [if_neg hsp]
    exact ⟨addDebt_entriesPos _ _ _ hpos, addDebt_n1 _ _ _ hn1⟩

/-- One whole expense: agreement and the calculator invariants are
maintained. -/
theorem applyExpenseV2_agrees (splits : List (UserId × ℚ)) (payerId : UserId) :
    ∀ (store cal : BalState), Agrees store cal → EntriesPos cal → N1 cal →
      Agrees
        (splits.foldl (fun st sp => applySplitV2 st payerId sp) store)
        (splits.foldl
          (fun cal sp =>
            if sp.1 = payerId then cal else addDebt cal sp.1 payerId sp.2) cal) ∧
      EntriesPos (splits.foldl
          (fun cal sp =>
            if sp.1 = payerId then cal else addDebt cal sp.1 payerId sp.2) cal) ∧
      N1 (splits.foldl
          (fun cal sp =>
            if sp.1 = payerId then cal else addDebt cal sp.1 payerId sp.2) cal) := by
  induction splits with
  | nil => intro store cal hag hpos hn1; exact ⟨hag, hpos, hn1⟩
  | cons sp rest ih =>
    intro store cal hag hpos hn1
    rw [List.foldl_cons, List.foldl_cons]
    obtain ⟨hpos', hn1'⟩ := calcStep_invariants payerId sp hpos hn1
    exact ih _ _ (applySplitV2_agrees payerId sp hag hpos hn1) hpos' hn1'

/-- The whole log, generalized over the starting states. -/
theorem incremental_replay_agrees_aux (es : List ExpenseE) :
    ∀ (store cal : BalState), Agrees store cal → EntriesPos cal → N1 cal →
      Agrees (es.foldl applyExpenseV2 store) (es.foldl applyExpenseCalc cal) ∧
        EntriesPos (es.foldl applyExpenseCalc cal) ∧
        N1 (es.foldl applyExpenseCalc cal) := by
  induction es with
  | nil => intro store cal hag hpos hn1; exact ⟨hag, hpos, hn1⟩
  | cons e rest ih =>
    intro store cal hag hpos hn1
    rw [List.foldl_cons, List.foldl_cons]
    obtain ⟨hag2, hpos2, hn12⟩ :=
      applyExpenseV2_agrees e.splits e.payerId store cal hag hpos hn1
    exact ih _ _ hag2 hpos2 hn12

/-- The whole log from the empty scope: the incremental store and the
replayed calculator agree, and the calculator state is positive and
mutual-debt-free. -/
theorem incremental_replay_agrees (es : List ExpenseE) :
    Agrees (incrementalStore es) (replayCalc es) ∧
      EntriesPos (replayCalc es) ∧ N1 (replayCalc es) :=
  incremental_replay_agrees_aux es [] [] (fun _ _ => rfl)
    (fun e he => absurd he (List.not_mem_nil e)) n1_nil

/-- C5: after replaying the group's expense log through
`recalculateGroupBalances` (clear, replay via `BalanceCalculator.addDebt`,
write back the positive entries), the resulting rows carry exactly the same
positive pairwise balances as the incremental `updateBalances` path applied
expense by expense, in posting order, from an empty scope: every pair reads
the same amount, and every recomputed row is positive. -/
theorem C5_recompute_equals_incremental (es : List ExpenseE) :
    (∀ d c, getBal (recomputedRows es) d c = getBal (incrementalStore es) d c) ∧
    ∀ e ∈ recomputedRows es, 0 < e.2 := by
  obtain ⟨hag, hpos, _⟩ := incremental_replay_agrees es
  have hfil : recomputedRows es = replayCalc es := by
    rw [recomputedRows]
    rw [List.filter_eq_self]
    intro e he
    simpa using hpos e he
  constructor
  · intro d c
    rw [hfil]
    exact (hag d c).symm
  · intro e he
    exact hpos e (List.mem_filter.mp he).1
